import Mathlib

/-!
Verification of the HTPhenotyping/htcondor_file_transfer repository against its
natural-language specification.  The development shallowly embeds the snapshot
script (`src/snapshot.py`) and, where the repository ships only the tests of the
`xfer` module, models the missing functions from the specification.
-/

namespace FileXfer

/-! ## Hash model

`hashlib` objects are modelled by the list of bytes absorbed so far
(`hashUpdate` is `hash.update`); `hexdigest` is a deterministic digest of the
absorbed stream (the concrete compression function is a stand-in for the
external SHA implementation, which is library code outside the repository). -/

abbrev Byte := Nat

abbrev HashState := List Byte

def hashInit : HashState := []

def hashUpdate (st : HashState) (data : List Byte) : HashState := st ++ data

def hexdigest (st : HashState) : Nat :=
  st.foldl (fun h b => (h * 256 + b % 256) % 2 ^ 512) 0

/-- `BUFFER_SIZE = 1024 * 1024` from `src/snapshot.py`. -/
def BUFFER_SIZE : Nat := 1024 * 1024

/-- Splits a list into consecutive chunks of size `n + 1`: models reading a
file a fixed-size buffer at a time (`file.read(BUFFER_SIZE)` until empty). -/
def chunksOfSucc (n : Nat) : List α → List (List α)
  | [] => []
  | x :: xs => (x :: xs).take (n + 1) :: chunksOfSucc n ((x :: xs).drop (n + 1))
termination_by l => l.length
decreasing_by
  simp only [List.drop_succ_cons, List.length_cons, List.length_drop]
  omega

/-- The successive buffers returned by reading a file of the given content. -/
def readChunks (content : List Byte) : List (List Byte) :=
  chunksOfSucc (BUFFER_SIZE - 1) content

theorem chunksOfSucc_flatten (n : Nat) (l : List α) : (chunksOfSucc n l).flatten = l := by
  induction l using chunksOfSucc.induct n with
  | case1 => simp [chunksOfSucc]
  | case2 x xs ih =>
    rw [chunksOfSucc]
    simp only [List.flatten_cons, ih, List.take_append_drop]

theorem readChunks_flatten (content : List Byte) : (readChunks content).flatten = content :=
  chunksOfSucc_flatten _ content

end FileXfer

namespace FileXfer.SnapshotPy

/-! ## Embedding of `src/snapshot.py`

The filesystem is a pair of finite maps: regular-file contents (readable via
`open`) and symlink targets (readable via `os.readlink`). -/

/-- Constants from Python's `stat` module. -/
def S_IFMT : Nat := 0o170000

def S_IFREG : Nat := 0o100000

def S_IFLNK : Nat := 0o120000

/-- `stat.S_ISREG(mode)`. -/
def S_ISREG (mode : Nat) : Bool := mode &&& S_IFMT == S_IFREG

/-- `stat.S_ISLNK(mode)`. -/
def S_ISLNK (mode : Nat) : Bool := mode &&& S_IFMT == S_IFLNK

structure FileSystem where
  files : List (String × List Byte)
  links : List (String × String)

/-- Reading the whole content of a regular file (`open` + repeated `read`). -/
def readFile (fs : FileSystem) (path : String) : Option (List Byte) :=
  fs.files.lookup path

/-- `os.readlink`. -/
def readlink (fs : FileSystem) (path : String) : Option String :=
  fs.links.lookup path

inductive SnapError
  /-- `RuntimeError(f"Not a regular file or symlink: {path}")` in `sha512`. -/
  | unsupportedFileType (path : String)
  /-- An `OSError` leaking out of `open`/`os.readlink`/`os.chdir`. -/
  | ioError (path : String)
deriving DecidableEq

/-- The UTF-8 bytes of a string (`bytes(text, "utf-8")`). -/
def utf8Bytes (s : String) : List Byte := s.toUTF8.toList.map UInt8.toNat

/-- `snapshot.py`'s `sha512(path, mode)`: hash a regular file by content read
in `BUFFER_SIZE` chunks, a symlink by the UTF-8 bytes of its target text, and
fail on any other file type. -/
def sha512 (fs : FileSystem) (path : String) (mode : Nat) : Except SnapError Nat :=
  if S_ISREG mode then
    match readFile fs path with
    | some content => .ok (hexdigest ((readChunks content).foldl hashUpdate hashInit))
    | none => .error (.ioError path)
  else if S_ISLNK mode then
    match readlink fs path with
    | some target => .ok (hexdigest (hashUpdate hashInit (utf8Bytes target)))
    | none => .error (.ioError path)
  else
    .error (.unsupportedFileType path)

structure FileMetadata where
  size : Nat
  sha512 : Nat
deriving DecidableEq

abbrev FileManifest := List (String × FileMetadata)

structure Snapshot where
  root : String
  manifest : FileManifest

def manifestPaths (m : FileManifest) : List String := m.map Prod.fst

/-- The paths printed by the first loop of `compare_snapshots`:
`paths1 - paths2`. -/
def onlyInFirst (s1 s2 : Snapshot) : List String :=
  (manifestPaths s1.manifest).filter
    (fun p => !(manifestPaths s2.manifest).contains p)

/-- The paths printed by the second loop of `compare_snapshots`:
`paths2 - paths1`. -/
def onlyInSecond (s1 s2 : Snapshot) : List String :=
  (manifestPaths s2.manifest).filter
    (fun p => !(manifestPaths s1.manifest).contains p)

/-- The paths printed by the third loop of `compare_snapshots`: paths in
`paths1 & paths2` whose metadata records are unequal (`m1[path] != m2[path]`). -/
def differing (s1 s2 : Snapshot) : List String :=
  (manifestPaths s1.manifest).filter
    (fun p => (manifestPaths s2.manifest).contains p &&
      !(s1.manifest.lookup p == s2.manifest.lookup p))

/-! `chdir` context manager (`src/snapshot.py` lines 55-65).  Process state is
the current working directory; `os.chdir` succeeds exactly on existing
directories and leaves the state unchanged on failure. -/

structure ProcState where
  cwd : String
deriving DecidableEq

/-- `os.chdir(path)`: on success the working directory becomes `path`; on
failure (`path` is not an existing directory) an `OSError` is raised and the
working directory is unchanged. -/
def osChdir (dirs : List String) (path : String) (st : ProcState) :
    ProcState × Except SnapError Unit :=
  if dirs.contains path then ({ cwd := path }, .ok ()) else (st, .error (.ioError path))

/-- The `chdir` context manager: record `os.getcwd()`, `os.chdir(path)`, run
the managed block, and in a `finally` clause `os.chdir(oldcwd)` — the restore
runs whether the block (or the initial `os.chdir`) succeeded or raised. -/
def chdirWith (dirs : List String) (path : String)
    (body : ProcState → ProcState × Except SnapError α) (st : ProcState) :
    ProcState × Except SnapError α :=
  let oldcwd := st.cwd
  match osChdir dirs path st with
  | (st1, .ok _) =>
    let r := body st1
    match osChdir dirs oldcwd r.1 with
    | (st3, .ok _) => (st3, r.2)
    | (st3, .error e2) => (st3, .error e2)
  | (st1, .error e) =>
    match osChdir dirs oldcwd st1 with
    | (st3, .ok _) => (st3, .error e)
    | (st3, .error e2) => (st3, .error e2)

/-- The `make` branch of `main` (`src/snapshot.py` lines 150-155):
`with chdir(root): manifest = make_manifest(".")` — the manifest builder runs
inside the context manager, so the restore applies to it. -/
def makeSnapshotCwd (dirs : List String) (root : String)
    (make_manifest : ProcState → ProcState × Except SnapError FileManifest)
    (st : ProcState) : ProcState × Except SnapError FileManifest :=
  chdirWith dirs root make_manifest st

theorem contains_eq_decide_mem (l : List String) (a : String) :
    l.contains a = decide (a ∈ l) := by
  by_cases h : a ∈ l <;> simp [h, List.elem_iff]

theorem not_ISREG_of_ISLNK {mode : Nat} (h : S_ISLNK mode = true) : S_ISREG mode = false := by
  simp only [S_ISLNK, S_IFMT, S_IFLNK, beq_iff_eq] at h
  simp only [S_ISREG, S_IFMT, S_IFREG, h]
  decide

/-- C5: `sha512` fails with the unsupported-file-type error exactly when the
mode is neither a regular file nor a symlink; for regular-file or symlink
modes that error is never produced. -/
theorem sha512_unsupported_iff (fs : FileSystem) (path : String) (mode : Nat) :
    sha512 fs path mode = .error (.unsupportedFileType path) ↔
      S_ISREG mode = false ∧ S_ISLNK mode = false := by
  cases hreg : S_ISREG mode with
  | true =>
    simp only [sha512, hreg, if_true]
    cases readFile fs path <;> simp
  | false =>
    cases hlnk : S_ISLNK mode with
    | true =>
      simp only [sha512, hreg, hlnk]
      cases readlink fs path <;> simp
    | false =>
      simp [sha512, hreg, hlnk]

/-- C6: for a symlink mode, `sha512` returns the digest of the UTF-8 bytes of
the link target text (the value of `os.readlink`), and the result is the same
in any filesystem whose `readlink` gives the same target — in particular it
does not depend on the contents of the file the link points to. -/
theorem sha512_symlink_target_only (fs : FileSystem) (path : String) (mode : Nat)
    (target : String) (hmode : S_ISLNK mode = true)
    (hlink : readlink fs path = some target) :
    sha512 fs path mode = .ok (hexdigest (hashUpdate hashInit (utf8Bytes target))) ∧
      ∀ fs2 : FileSystem, readlink fs2 path = some target →
        sha512 fs2 path mode = sha512 fs path mode := by
  have hreg := not_ISREG_of_ISLNK hmode
  refine ⟨?_, ?_⟩
  · simp [sha512, hreg, hmode, hlink]
  · intro fs2 h2
    simp [sha512, hreg, hmode, hlink, h2]

def fsLnkEx : FileSystem := ⟨[("t", [1, 2])], [("l", "t")]⟩

theorem sha512_symlink_target_only_witness :
    S_ISLNK 40960 = true ∧
      sha512 fsLnkEx "l" 40960 = .ok (hexdigest (hashUpdate hashInit (utf8Bytes "t"))) :=
  ⟨by decide, (sha512_symlink_target_only fsLnkEx "l" 40960 "t" (by decide) rfl).1⟩

/-- C4: `compare_snapshots` classifies paths into three pairwise disjoint
groups — only in the first manifest, only in the second, and present in both
with unequal metadata — every path in the union of the key sets falls in one
of the three groups or is present in both with equal metadata, and a path
present in both with equal metadata is in none of the three groups. -/
theorem compare_classification (s1 s2 : Snapshot) (p : String) :
    (p ∈ onlyInFirst s1 s2 → p ∉ onlyInSecond s1 s2 ∧ p ∉ differing s1 s2) ∧
    (p ∈ onlyInSecond s1 s2 → p ∉ differing s1 s2) ∧
    (p ∈ manifestPaths s1.manifest ∨ p ∈ manifestPaths s2.manifest →
      p ∈ onlyInFirst s1 s2 ∨ p ∈ onlyInSecond s1 s2 ∨ p ∈ differing s1 s2 ∨
        (p ∈ manifestPaths s1.manifest ∧ p ∈ manifestPaths s2.manifest ∧
          s1.manifest.lookup p = s2.manifest.lookup p)) ∧
    (p ∈ manifestPaths s1.manifest → p ∈ manifestPaths s2.manifest →
      s1.manifest.lookup p = s2.manifest.lookup p →
      p ∉ onlyInFirst s1 s2 ∧ p ∉ onlyInSecond s1 s2 ∧ p ∉ differing s1 s2) := by
  simp only [onlyInFirst, onlyInSecond, differing, List.mem_filter,
    contains_eq_decide_mem, Bool.and_eq_true, Bool.not_eq_true',
    decide_eq_false_iff_not, decide_eq_true_eq, beq_eq_false_iff_ne, ne_eq]
  tauto

def s1ex : Snapshot := ⟨"r1", [("a", ⟨1, 2⟩), ("b", ⟨3, 4⟩)]⟩

def s2ex : Snapshot := ⟨"r2", [("b", ⟨3, 4⟩), ("c", ⟨5, 6⟩)]⟩

theorem compare_classification_witness :
    ("b" ∈ manifestPaths s1ex.manifest ∨ "b" ∈ manifestPaths s2ex.manifest) ∧
      ("b" ∈ onlyInFirst s1ex s2ex ∨ "b" ∈ onlyInSecond s1ex s2ex ∨
        "b" ∈ differing s1ex s2ex ∨
        ("b" ∈ manifestPaths s1ex.manifest ∧ "b" ∈ manifestPaths s2ex.manifest ∧
          s1ex.manifest.lookup "b" = s2ex.manifest.lookup "b")) :=
  ⟨by decide, (compare_classification s1ex s2ex "b").2.2.1 (by decide)⟩

/-- C10: the `chdir` context manager restores the working directory recorded on
entry whenever the managed block exits, normally or with an exception (the
`finally` clause), provided the original working directory still exists; in
particular the snapshot `make` operation leaves the working directory unchanged
even if manifest building fails. -/
theorem chdirWith_restores_cwd {α : Type} (dirs : List String) (path : String)
    (body : ProcState → ProcState × Except SnapError α)
    (mm : ProcState → ProcState × Except SnapError FileManifest) (st : ProcState)
    (h : st.cwd ∈ dirs) :
    ((chdirWith dirs path body st).1).cwd = st.cwd ∧
      ((makeSnapshotCwd dirs path mm st).1).cwd = st.cwd := by
  have key : ∀ (β : Type) (b : ProcState → ProcState × Except SnapError β),
      ((chdirWith dirs path b st).1).cwd = st.cwd := by
    intro β b
    by_cases hpath : path ∈ dirs <;>
      simp [chdirWith, osChdir, hpath, h]
  exact ⟨key α body, key _ mm⟩

def bodyFailEx : ProcState → ProcState × Except SnapError FileManifest :=
  fun st => (st, .error (.ioError "boom"))

theorem chdirWith_restores_cwd_witness :
    (ProcState.mk "a").cwd ∈ ["a", "b"] ∧
      ((chdirWith ["a", "b"] "b" bodyFailEx (ProcState.mk "a")).1).cwd = "a" :=
  ⟨by decide,
    (chdirWith_restores_cwd ["a", "b"] "b" bodyFailEx bodyFailEx (ProcState.mk "a")
      (by decide)).1⟩

end FileXfer.SnapshotPy

namespace FileXfer.Xfer

/-! ## The `xfer` module

The repository ships the tests of `xfer` (`src/tests/`) but not `xfer.py`
itself, so the definitions below are modelled from the specification. -/

/-- Modelled from the spec: `camel_to_upper_snake` (absent `xfer.py`) splits a
variant name at uppercase-letter boundaries, treating a maximal run of
uppercase letters as atomic (so a boundary falls before an uppercase letter
whose predecessor is not uppercase, or which is followed by a lowercase
letter), upper-cases each segment and joins with underscores. -/
def camelChars : Option Char → List Char → List Char
  | _, [] => []
  | back, c :: rest =>
    let boundary := c.isUpper &&
      (match back with
        | none => false
        | some b => !b.isUpper ||
          (match rest.head? with
            | some n => n.isLower
            | none => false))
    (if boundary then ['_', c.toUpper] else [c.toUpper]) ++ camelChars (some c) rest

/-- Modelled from the spec: the tag-derivation case-conversion rule. -/
def camel_to_upper_snake (s : String) : String := String.mk (camelChars none s.data)

/-- C8: the tag-derivation rule maps `CamelCase` to `CAMEL_CASE`, `fooBar` to
`FOO_BAR`, `DAGMan` to `DAG_MAN`, `AlTeRnAtInG` to `AL_TE_RN_AT_IN_G`, and
`FOOBAR` to `FOOBAR` (plus the remaining cases of the repository's test
table). -/
theorem camel_to_upper_snake_cases :
    camel_to_upper_snake "CamelCase" = "CAMEL_CASE" ∧
      camel_to_upper_snake "fooBar" = "FOO_BAR" ∧
      camel_to_upper_snake "DAGMan" = "DAG_MAN" ∧
      camel_to_upper_snake "AlTeRnAtInG" = "AL_TE_RN_AT_IN_G" ∧
      camel_to_upper_snake "FOOBAR" = "FOOBAR" ∧
      camel_to_upper_snake "foobar" = "FOOBAR" ∧
      camel_to_upper_snake "twoGroups" = "TWO_GROUPS" := by
  refine ⟨?_, ?_, ?_, ?_, ?_, ?_, ?_⟩ <;> decide

/-! Decimal digits, used for the textual encoding of sizes and timestamps. -/

def digitChar : Nat → Char
  | 0 => '0'
  | 1 => '1'
  | 2 => '2'
  | 3 => '3'
  | 4 => '4'
  | 5 => '5'
  | 6 => '6'
  | 7 => '7'
  | 8 => '8'
  | _ => '9'

def charVal (c : Char) : Nat := c.toNat - 48

/-- The little-endian base-10 digits of a natural number, computed with
explicit fuel so that it reduces by computation. -/
def natDigitsAux : Nat → Nat → List Nat
  | 0, _ => []
  | _, 0 => []
  | fuel + 1, n + 1 => (n + 1) % 10 :: natDigitsAux fuel ((n + 1) / 10)

def natDigitsLE (n : Nat) : List Nat := natDigitsAux n n

/-- The decimal digit characters of a natural number, most significant first. -/
def natChars (n : Nat) : List Char :=
  if n = 0 then ['0'] else (natDigitsLE n).reverse.map digitChar

/-- The value of a run of digit characters, most significant first (the way a
textual decoder folds digits left to right). -/
def digitsToNat (cs : List Char) : Nat := cs.foldl (fun acc c => acc * 10 + charVal c) 0

theorem charVal_digitChar {d : Nat} (h : d < 10) : charVal (digitChar d) = d := by
  interval_cases d <;> decide

theorem isDigit_digitChar {d : Nat} (h : d < 10) : (digitChar d).isDigit = true := by
  interval_cases d <;> decide

theorem foldl_digits_reverse (L : List Nat) :
    L.reverse.foldl (fun acc d => acc * 10 + d) 0 = Nat.ofDigits 10 L := by
  induction L with
  | nil => simp [Nat.ofDigits]
  | cons d L ih =>
    simp only [List.reverse_cons, List.foldl_append, List.foldl_cons, List.foldl_nil,
      Nat.ofDigits_cons, ih]
    ring

theorem ofDigits_natDigitsAux :
    ∀ fuel n, n ≤ fuel → Nat.ofDigits 10 (natDigitsAux fuel n) = n := by
  intro fuel
  induction fuel with
  | zero =>
    intro n hn
    interval_cases n
    simp [natDigitsAux, Nat.ofDigits]
  | succ fuel ih =>
    intro n hn
    match n with
    | 0 => simp [natDigitsAux, Nat.ofDigits]
    | m + 1 =>
      have hdiv : (m + 1) / 10 ≤ fuel := by
        have := Nat.div_lt_self (Nat.succ_pos m) (by norm_num : (1 : Nat) < 10)
        omega
      rw [natDigitsAux, Nat.ofDigits_cons, ih _ hdiv]
      omega

theorem mem_natDigitsAux_lt :
    ∀ fuel n d, d ∈ natDigitsAux fuel n → d < 10 := by
  intro fuel
  induction fuel with
  | zero => intro n d hd; simp [natDigitsAux] at hd
  | succ fuel ih =>
    intro n d hd
    match n with
    | 0 => simp [natDigitsAux] at hd
    | m + 1 =>
      rw [natDigitsAux] at hd
      rcases List.mem_cons.mp hd with h | h
      · subst h; exact Nat.mod_lt _ (by norm_num)
      · exact ih _ _ h

theorem digitsToNat_natChars (n : Nat) : digitsToNat (natChars n) = n := by
  by_cases h0 : n = 0
  · subst h0; decide
  · unfold natChars digitsToNat
    rw [if_neg h0, List.foldl_map]
    have hlt : ∀ d ∈ (natDigitsLE n).reverse, d < 10 := by
      intro d hd
      exact mem_natDigitsAux_lt n n d (List.mem_reverse.mp hd)
    calc (natDigitsLE n).reverse.foldl (fun acc d => acc * 10 + charVal (digitChar d)) 0
        = (natDigitsLE n).reverse.foldl (fun acc d => acc * 10 + d) 0 := by
          apply List.foldl_ext
          intro acc d hd
          rw [charVal_digitChar (hlt d hd)]
      _ = n := by rw [foldl_digits_reverse, natDigitsLE, ofDigits_natDigitsAux n n le_rfl]

theorem isDigit_mem_natChars (n : Nat) : ∀ c ∈ natChars n, c.isDigit = true := by
  intro c hc
  unfold natChars at hc
  by_cases h0 : n = 0
  · rw [if_pos h0] at hc
    simp only [List.mem_singleton] at hc
    subst hc; decide
  · rw [if_neg h0] at hc
    obtain ⟨d, hd, rfl⟩ := List.mem_map.mp hc
    exact isDigit_digitChar (mem_natDigitsAux_lt n n d (List.mem_reverse.mp hd))

theorem natChars_ne_nil (n : Nat) : natChars n ≠ [] := by
  unfold natChars
  by_cases h0 : n = 0
  · rw [if_pos h0]; simp
  · rw [if_neg h0]
    obtain ⟨m, rfl⟩ := Nat.exists_eq_succ_of_ne_zero h0
    rw [natDigitsLE, natDigitsAux]
    simp

/-! ## Manifest entry model

Modelled from the spec: each entry serializes to one line
`TAG<space><payload>`, the payload being a JSON object mapping field names to
field values.  Timestamps are decimal numbers with an optional fractional
part, modelled exactly as their digit strings. -/

inductive TransferDirection
  | PULL
  | PUSH
deriving DecidableEq

def directionStr : TransferDirection → String
  | .PULL => "PULL"
  | .PUSH => "PUSH"

/-- Modelled from the spec: a timestamp is a decimal number; fractional
seconds are permitted (`frac` is the possibly-empty list of fraction
digits). -/
structure Timestamp where
  whole : Nat
  frac : List (Fin 10)
deriving DecidableEq

/-- Modelled from the spec: the closed set of entry variants of the manifest
entry model, with the field sets of section 3 of the spec. -/
inductive Entry
  | File (name : String) (size : Nat)
  | Metadata (name : String) (size : Nat) (digest : String)
  | TransferRequest (name : String) (size : Nat)
  | VerifyRequest (name : String) (size : Nat)
  | TransferComplete (name : String) (size : Nat) (digest : String) (timestamp : Timestamp)
  | SyncRequest (direction : TransferDirection) (timestamp : Timestamp)
      (bytes_to_verify : Nat) (files_to_verify : Nat) ( remote_prefix : String)
      (bytes_to_transfer : Nat) (files_to_transfer : Nat) (files_at_source : Nat)
  | SyncDone (timestamp : Timestamp)
deriving DecidableEq

/-- A JSON value as used by the payloads: a string or a decimal number. -/
inductive JVal
  | str (s : String)
  | num (t : Timestamp)
deriving DecidableEq

/-- JSON string literal: the payload strings contain no character that needs
escaping (see `validStr`). -/
def encodeJStr (s : String) : List Char := '\"' :: (s.data ++ ['\"'])

def encodeTimestamp (t : Timestamp) : List Char :=
  natChars t.whole ++
    (match t.frac with
      | [] => []
      | ds => '.' :: ds.map (fun d => digitChar d.val))

def encodeJVal : JVal → List Char
  | .str s => encodeJStr s
  | .num t => encodeTimestamp t

def encodeField (f : String × JVal) : List Char :=
  encodeJStr f.1 ++ ':' :: ' ' :: encodeJVal f.2

def encodeFieldsSep : List (String × JVal) → List Char
  | [] => []
  | [f] => encodeField f
  | f :: g :: fs => encodeField f ++ ',' :: ' ' :: encodeFieldsSep (g :: fs)

def encodeObj (fields : List (String × JVal)) : List Char :=
  '\x7b' :: (encodeFieldsSep fields ++ ['\x7d'])

def parseJStr : List Char → Option (String × List Char)
  | '\"' :: rest =>
    match rest.dropWhile (fun c => c != '\"') with
    | '\"' :: rest2 => some (String.mk (rest.takeWhile (fun c => c != '\"')), rest2)
    | _ => none
  | _ => none

def parseNat (cs : List Char) : Option (Nat × List Char) :=
  match cs.takeWhile Char.isDigit with
  | [] => none
  | ds => some (digitsToNat ds, cs.dropWhile Char.isDigit)

/-- A total digit-character reading, used after `isDigit` has been checked. -/
def charFin (c : Char) : Fin 10 :=
  if h : c.toNat - 48 < 10 then ⟨c.toNat - 48, h⟩ else 0

def parseFrac (cs : List Char) : Option (List (Fin 10) × List Char) :=
  if cs.head? = some '.' then
    match cs.tail.takeWhile Char.isDigit with
    | [] => none
    | ds => some (ds.map charFin, cs.tail.dropWhile Char.isDigit)
  else some ([], cs)

def parseJNum (cs : List Char) : Option (Timestamp × List Char) :=
  match parseNat cs with
  | none => none
  | some (w, cs1) =>
    match parseFrac cs1 with
    | none => none
    | some (f, cs2) => some (⟨w, f⟩, cs2)

def parseJVal (cs : List Char) : Option (JVal × List Char) :=
  if cs.head? = some '\"' then
    match parseJStr cs with
    | none => none
    | some (s, rest) => some (.str s, rest)
  else
    match parseJNum cs with
    | none => none
    | some (t, rest) => some (.num t, rest)

def skipSpaces (cs : List Char) : List Char := cs.dropWhile (fun c => c == ' ')

def expectColon : List Char → Option (List Char)
  | ':' :: cs => some cs
  | _ => none

/-- After a field's value: a comma continues with the recursive field parser,
a closing brace ends the object, anything else is a parse failure. -/
def afterValue (k : String) (v : JVal)
    (recur : List Char → Option (List (String × JVal) × List Char)) :
    List Char → Option (List (String × JVal) × List Char)
  | ',' :: cs4 => (recur (skipSpaces cs4)).map (fun p => ((k, v) :: p.1, p.2))
  | '\x7d' :: cs4 => some ([(k, v)], cs4)
  | _ => none

/-- Field-list parser for a JSON object body (after the opening brace); the
result is the field mapping, looked up by name afterwards, so decoding is not
order-dependent.  `fuel` bounds the recursion by the number of fields. -/
def parseFieldsAux : Nat → List Char → Option (List (String × JVal) × List Char)
  | 0, _ => none
  | fuel + 1, cs =>
    (parseJStr cs).bind fun kcs =>
      (expectColon kcs.2).bind fun cs2 =>
        (parseJVal (skipSpaces cs2)).bind fun vcs =>
          afterValue kcs.1 vcs.1 (parseFieldsAux fuel) vcs.2

def parseObj (cs : List Char) : Option (List (String × JVal) × List Char) :=
  match cs with
  | '\x7b' :: rest => parseFieldsAux (rest.length + 1) rest
  | _ => none

/-- The field mapping of each entry variant (a `Nat`-valued field is a number
with no fraction digits). -/
def fieldsOf : Entry → List (String × JVal)
  | .File name size => [("name", .str name), ("size", .num ⟨size, []⟩)]
  | .Metadata name size digest =>
      [("name", .str name), ("size", .num ⟨size, []⟩), ("digest", .str digest)]
  | .TransferRequest name size => [("name", .str name), ("size", .num ⟨size, []⟩)]
  | .VerifyRequest name size => [("name", .str name), ("size", .num ⟨size, []⟩)]
  | .TransferComplete name size digest timestamp =>
      [("name", .str name), ("size", .num ⟨size, []⟩), ("digest", .str digest),
        ("timestamp", .num timestamp)]
  | .SyncRequest direction timestamp bytes_to_verify files_to_verify rp
      bytes_to_transfer files_to_transfer files_at_source =>
      [("direction", .str (directionStr direction)), ("timestamp", .num timestamp),
        ("bytes_to_verify", .num ⟨bytes_to_verify, []⟩),
        ("files_to_verify", .num ⟨files_to_verify, []⟩),
        ("remote_prefix", .str rp),
        ("bytes_to_transfer", .num ⟨bytes_to_transfer, []⟩),
        ("files_to_transfer", .num ⟨files_to_transfer, []⟩),
        ("files_at_source", .num ⟨files_at_source, []⟩)]
  | .SyncDone timestamp => [("timestamp", .num timestamp)]

def variantName : Entry → String
  | .File .. => "File"
  | .Metadata .. => "Metadata"
  | .TransferRequest .. => "TransferRequest"
  | .VerifyRequest .. => "VerifyRequest"
  | .TransferComplete .. => "TransferComplete"
  | .SyncRequest .. => "SyncRequest"
  | .SyncDone .. => "SyncDone"

/-- The line tag, derived mechanically from the variant name. -/
def tagOf (e : Entry) : String := camel_to_upper_snake (variantName e)

/-- One serialized line: `TAG<space><payload>` (without the newline). -/
def encodeLine (e : Entry) : List Char :=
  (tagOf e).data ++ ' ' :: encodeObj (fieldsOf e)

/-- `write_entry_to`: appends the serialized line and a newline. -/
def write_entry_to (e : Entry) : List Char := encodeLine e ++ ['\n']

def writeEntries (es : List Entry) : List Char := (es.map write_entry_to).flatten

def getStr : Option JVal → Option String
  | some (.str s) => some s
  | _ => none

def getNat : Option JVal → Option Nat
  | some (.num t) =>
    match t.frac with
    | [] => some t.whole
    | _ => none
  | _ => none

def getTs : Option JVal → Option Timestamp
  | some (.num t) => some t
  | _ => none

def getDir : Option JVal → Option TransferDirection
  | some (.str "PULL") => some .PULL
  | some (.str "PUSH") => some .PUSH
  | _ => none

/-- Builds the entry of the given tag from a decoded field mapping: every
field of the variant must be present with the right type, and no extra fields
are accepted. -/
def entryFromFields (tag : String) (fs : List (String × JVal)) : Option Entry :=
  if tag = "FILE" then
    match getStr (fs.lookup "name"), getNat (fs.lookup "size") with
    | some name, some size => if fs.length = 2 then some (.File name size) else none
    | _, _ => none
  else if tag = "METADATA" then
    match getStr (fs.lookup "name"), getNat (fs.lookup "size"),
        getStr (fs.lookup "digest") with
    | some name, some size, some digest =>
      if fs.length = 3 then some (.Metadata name size digest) else none
    | _, _, _ => none
  else if tag = "TRANSFER_REQUEST" then
    match getStr (fs.lookup "name"), getNat (fs.lookup "size") with
    | some name, some size =>
      if fs.length = 2 then some (.TransferRequest name size) else none
    | _, _ => none
  else if tag = "VERIFY_REQUEST" then
    match getStr (fs.lookup "name"), getNat (fs.lookup "size") with
    | some name, some size =>
      if fs.length = 2 then some (.VerifyRequest name size) else none
    | _, _ => none
  else if tag = "TRANSFER_COMPLETE" then
    match getStr (fs.lookup "name"), getNat (fs.lookup "size"),
        getStr (fs.lookup "digest"), getTs (fs.lookup "timestamp") with
    | some name, some size, some digest, some timestamp =>
      if fs.length = 4 then some (.TransferComplete name size digest timestamp) else none
    | _, _, _, _ => none
  else if tag = "SYNC_REQUEST" then
    match getDir (fs.lookup "direction"), getTs (fs.lookup "timestamp"),
        getNat (fs.lookup "bytes_to_verify"), getNat (fs.lookup "files_to_verify"),
        getStr (fs.lookup "remote_prefix"), getNat (fs.lookup "bytes_to_transfer"),
        getNat (fs.lookup "files_to_transfer"), getNat (fs.lookup "files_at_source") with
    | some direction, some timestamp, some bytes_to_verify, some files_to_verify,
        some rp, some bytes_to_transfer, some files_to_transfer, some files_at_source =>
      if fs.length = 8 then
        some (.SyncRequest direction timestamp bytes_to_verify files_to_verify rp
          bytes_to_transfer files_to_transfer files_at_source)
      else none
    | _, _, _, _, _, _, _, _ => none
  else if tag = "SYNC_DONE" then
    match getTs (fs.lookup "timestamp") with
    | some timestamp => if fs.length = 1 then some (.SyncDone timestamp) else none
    | _ => none
  else none

/-- Parses one non-blank, non-comment line: the tag runs to the first space,
the rest is the JSON payload, which must be consumed entirely. -/
def parseEntryLine (cs : List Char) : Option Entry :=
  match cs.dropWhile (fun c => c != ' ') with
  | ' ' :: payload =>
    match parseObj payload with
    | some (fs, []) => entryFromFields (String.mk (cs.takeWhile (fun c => c != ' '))) fs
    | _ => none
  | _ => none

inductive ReadError
  | MalformedEntry (line : String)
deriving DecidableEq

def trimChars (cs : List Char) : List Char :=
  ((cs.dropWhile Char.isWhitespace).reverse.dropWhile Char.isWhitespace).reverse

/-- Modelled from the spec: one line of the manifest log (absent `xfer.py`):
after stripping surrounding whitespace, a blank line or a line whose first
character is `#` is skipped; any other line must parse as `TAG<space><payload>`
or the read fails with `MalformedEntry` naming the line. -/
def decodeLine (cs : List Char) : Except ReadError (Option Entry) :=
  let t := trimChars cs
  if t = [] then .ok none
  else if t.head? = some '#' then .ok none
  else
    match parseEntryLine t with
    | some e => .ok (some e)
    | none => .error (.MalformedEntry (String.mk cs))

def readLines : List (List Char) → Except ReadError (List Entry)
  | [] => .ok []
  | l :: ls =>
    match decodeLine l with
    | .error e => .error e
    | .ok none => readLines ls
    | .ok (some e) =>
      match readLines ls with
      | .error er => .error er
      | .ok es => .ok (e :: es)

/-- Splitting a text into lines at newline characters. -/
def splitNl : List Char → List (List Char)
  | [] => [[]]
  | c :: rest =>
    if c = '\n' then [] :: splitNl rest
    else
      match splitNl rest with
      | l :: ls => (c :: l) :: ls
      | [] => [[c]]

/-- Modelled from the spec: `read_manifest` decodes the log text line by line,
skipping comments and blank lines and preserving entry order. -/
def read_manifest (text : String) : Except ReadError (List Entry) :=
  readLines (splitNl text.data)

/-- Valid payload strings: no character that would need JSON escaping or break
the line structure of the log. -/
def validStr (s : String) : Bool :=
  s.data.all (fun c => !(c == '\"') && !(c == '\\') && !(c == '\n') && !(c == '\r'))

def validEntry : Entry → Bool
  | .File name _ => validStr name
  | .Metadata name _ digest => validStr name && validStr digest
  | .TransferRequest name _ => validStr name
  | .VerifyRequest name _ => validStr name
  | .TransferComplete name _ digest _ => validStr name && validStr digest
  | .SyncRequest _ _ _ _ rp _ _ _ => validStr rp
  | .SyncDone _ => true

def validJVal : JVal → Bool
  | .str s => validStr s
  | .num _ => true

def validField (f : String × JVal) : Bool := validStr f.1 && validJVal f.2

/-! ### Parser inversion lemmas -/

theorem dropWhile_eq_self_of_head {p : α → Bool} {l : List α}
    (h : ∀ c, l.head? = some c → p c = false) : l.dropWhile p = l := by
  cases l with
  | nil => rfl
  | cons c cs =>
    rw [List.dropWhile_cons, if_neg]
    simp [h c rfl]

theorem takeWhile_append_of {p : α → Bool} {l r : List α}
    (hl : ∀ a ∈ l, p a = true) (hr : ∀ c, r.head? = some c → p c = false) :
    (l ++ r).takeWhile p = l ∧ (l ++ r).dropWhile p = r := by
  induction l with
  | nil =>
    refine ⟨?_, dropWhile_eq_self_of_head hr⟩
    cases r with
    | nil => rfl
    | cons c cs =>
      rw [List.nil_append, List.takeWhile_cons, if_neg]
      simp [hr c rfl]
  | cons a l ih =>
    have ha : p a = true := hl a (List.mem_cons_self a l)
    obtain ⟨ih1, ih2⟩ := ih (fun x hx => hl x (List.mem_cons_of_mem a hx))
    constructor
    · rw [List.cons_append, List.takeWhile_cons, if_pos ha, ih1]
    · rw [List.cons_append, List.dropWhile_cons, if_pos ha, ih2]

theorem validStr_spec {s : String} (h : validStr s = true) :
    ∀ c ∈ s.data, c ≠ '\"' ∧ c ≠ '\\' ∧ c ≠ '\n' ∧ c ≠ '\r' := by
  intro c hc
  have hcc := List.all_eq_true.mp h c hc
  simp only [Bool.and_eq_true, Bool.not_eq_true', beq_eq_false_iff_ne, ne_eq] at hcc
  tauto

theorem parseJStr_encode {s : String} (r : List Char) (h : validStr s = true) :
    parseJStr (encodeJStr s ++ r) = some (s, r) := by
  have hq : ∀ c ∈ s.data, (c != '\"') = true := by
    intro c hc
    simpa using (validStr_spec h c hc).1
  have hhd : ∀ c : Char, ('\"' :: r).head? = some c → (c != '\"') = false := by
    intro c hc
    simp only [List.head?_cons, Option.some.injEq] at hc
    subst hc; decide
  obtain ⟨htake, hdrop⟩ := takeWhile_append_of (l := s.data) (r := '\"' :: r) hq hhd
  have he : encodeJStr s ++ r = '\"' :: (s.data ++ '\"' :: r) := by
    simp [encodeJStr]
  rw [he, parseJStr, hdrop, htake]
  rfl

/-- Reduction of `parseNat` when the input starts with at least one digit. -/
theorem parseNat_pos (cs : List Char) (h : cs.takeWhile Char.isDigit ≠ []) :
    parseNat cs =
      some (digitsToNat (cs.takeWhile Char.isDigit), cs.dropWhile Char.isDigit) := by
  rw [parseNat]
  obtain ⟨c, cs2, hc⟩ := List.exists_cons_of_ne_nil h
  rw [hc]

theorem parseNat_encode (n : Nat) (r : List Char)
    (hr : ∀ c, r.head? = some c → c.isDigit = false) :
    parseNat (natChars n ++ r) = some (n, r) := by
  obtain ⟨htake, hdrop⟩ :=
    takeWhile_append_of (l := natChars n) (r := r) (isDigit_mem_natChars n) hr
  rw [parseNat_pos _ (by rw [htake]; exact natChars_ne_nil n), htake, hdrop,
    digitsToNat_natChars]

theorem charFin_digitChar (d : Fin 10) : charFin (digitChar d.val) = d := by
  fin_cases d <;> decide

theorem parseFrac_encode_nil (r : List Char) (hr : r.head? ≠ some '.') :
    parseFrac r = some ([], r) := by
  rw [parseFrac, if_neg hr]

/-- Reduction of `parseFrac` on a dot followed by at least one digit. -/
theorem parseFrac_cons_dot (rest : List Char) (h : rest.takeWhile Char.isDigit ≠ []) :
    parseFrac ('.' :: rest) =
      some ((rest.takeWhile Char.isDigit).map charFin,
        rest.dropWhile Char.isDigit) := by
  rw [parseFrac, if_pos (show ('.' :: rest).head? = some '.' from rfl), List.tail_cons]
  obtain ⟨c, cs2, hc⟩ := List.exists_cons_of_ne_nil h
  rw [hc]

theorem parseFrac_encode (ds : List (Fin 10)) (hds : ds ≠ []) (r : List Char)
    (hr : ∀ c, r.head? = some c → c.isDigit = false) :
    parseFrac ('.' :: (ds.map (fun d => digitChar d.val) ++ r)) = some (ds, r) := by
  have hdig : ∀ c ∈ ds.map (fun d => digitChar d.val), c.isDigit = true := by
    intro c hc
    obtain ⟨d, _, rfl⟩ := List.mem_map.mp hc
    exact isDigit_digitChar d.isLt
  obtain ⟨htake, hdrop⟩ :=
    takeWhile_append_of (l := ds.map (fun d => digitChar d.val)) (r := r) hdig hr
  have hne : (ds.map (fun d => digitChar d.val) ++ r).takeWhile Char.isDigit ≠ [] := by
    rw [htake]
    simpa using hds
  rw [parseFrac_cons_dot _ hne, htake, hdrop, List.map_map]
  have hid : ds.map (charFin ∘ fun d => digitChar d.val) = ds := by
    have hcomp : (charFin ∘ fun d : Fin 10 => digitChar d.val) = id := by
      funext d
      exact charFin_digitChar d
    rw [hcomp, List.map_id]
  rw [hid]

theorem parseJNum_encode (t : Timestamp) (r : List Char)
    (hr : ∀ c, r.head? = some c → c.isDigit = false ∧ c ≠ '.') :
    parseJNum (encodeTimestamp t ++ r) = some (t, r) := by
  obtain ⟨w, f⟩ := t
  cases f with
  | nil =>
    have he : encodeTimestamp ⟨w, []⟩ ++ r = natChars w ++ r := by
      simp [encodeTimestamp]
    have h1 : parseNat (natChars w ++ r) = some (w, r) :=
      parseNat_encode w r (fun c hc => (hr c hc).1)
    have h2 : parseFrac r = some ([], r) :=
      parseFrac_encode_nil r (fun hc => (hr '.' hc).2 rfl)
    simp only [he, parseJNum, h1, h2]
  | cons d0 ds =>
    have he : encodeTimestamp ⟨w, d0 :: ds⟩ ++ r =
        natChars w ++ ('.' :: ((d0 :: ds).map (fun d => digitChar d.val) ++ r)) := by
      simp [encodeTimestamp]
    have h1 : parseNat (natChars w ++ ('.' ::
        ((d0 :: ds).map (fun d => digitChar d.val) ++ r))) =
        some (w, '.' :: ((d0 :: ds).map (fun d => digitChar d.val) ++ r)) := by
      apply parseNat_encode
      intro c hc
      simp only [List.head?_cons, Option.some.injEq] at hc
      subst hc; decide
    have h2 : parseFrac ('.' :: ((d0 :: ds).map (fun d => digitChar d.val) ++ r)) =
        some (d0 :: ds, r) :=
      parseFrac_encode (d0 :: ds) (by simp) r (fun c hc => (hr c hc).1)
    simp only [he, parseJNum, h1, h2]

theorem parseJVal_encode (v : JVal) (r : List Char) (hv : validJVal v = true)
    (hr : ∀ c, r.head? = some c → c.isDigit = false ∧ c ≠ '.' ∧ c ≠ '\"') :
    parseJVal (encodeJVal v ++ r) = some (v, r) := by
  cases v with
  | str s =>
    have hhd : (encodeJStr s ++ r).head? = some '\"' := by simp [encodeJStr]
    rw [encodeJVal, parseJVal, if_pos hhd, parseJStr_encode r hv]
  | num t =>
    have hne := natChars_ne_nil t.whole
    obtain ⟨c, cs, hc⟩ := List.exists_cons_of_ne_nil hne
    have hcdig : c.isDigit = true := by
      apply isDigit_mem_natChars t.whole
      rw [hc]; exact List.mem_cons_self c cs
    have hcq : c ≠ '\"' := by
      intro hq; rw [hq] at hcdig; exact absurd hcdig (by decide)
    have hhd : (encodeJVal (.num t) ++ r).head? ≠ some '\"' := by
      have hts : encodeTimestamp t = c :: (cs ++
          (match t.frac with
            | [] => []
            | ds => '.' :: ds.map (fun d => digitChar d.val))) := by
        rw [encodeTimestamp, hc]; simp
      simp only [encodeJVal, hts, List.cons_append, List.head?_cons, Option.some.injEq]
      intro hq
      exact hcq (Option.some.inj hq)
    rw [parseJVal, if_neg hhd, encodeJVal,
      parseJNum_encode t r (fun c hc => ⟨(hr c hc).1, (hr c hc).2.1⟩)]

theorem encodeTimestamp_head_digit (t : Timestamp) :
    ∃ c cs, encodeTimestamp t = c :: cs ∧ c.isDigit = true := by
  obtain ⟨c, cs0, hc⟩ := List.exists_cons_of_ne_nil (natChars_ne_nil t.whole)
  refine ⟨c, cs0 ++ (match t.frac with
    | [] => []
    | ds => '.' :: ds.map (fun d => digitChar d.val)), ?_, ?_⟩
  · rw [encodeTimestamp, hc, List.cons_append]
  · exact isDigit_mem_natChars t.whole c (hc ▸ List.mem_cons_self c cs0)

theorem digit_not_space {c : Char} (h : c.isDigit = true) : (c == ' ') = false := by
  cases hq : c == ' ' with
  | false => rfl
  | true =>
    rw [show c = ' ' from beq_iff_eq.mp hq] at h
    exact absurd h (by decide)

theorem skipSpaces_encodeJVal (v : JVal) (rest : List Char) :
    skipSpaces (' ' :: (encodeJVal v ++ rest)) = encodeJVal v ++ rest := by
  have hstep : skipSpaces (' ' :: (encodeJVal v ++ rest)) =
      skipSpaces (encodeJVal v ++ rest) := rfl
  rw [hstep]
  apply dropWhile_eq_self_of_head
  intro c hc
  cases v with
  | str s =>
    rw [encodeJVal, encodeJStr, List.cons_append, List.head?_cons] at hc
    rw [show c = '\"' from (Option.some.inj hc).symm]
    decide
  | num t =>
    obtain ⟨c0, cs0, hts, hdig⟩ := encodeTimestamp_head_digit t
    rw [encodeJVal, hts, List.cons_append, List.head?_cons] at hc
    rw [show c = c0 from (Option.some.inj hc).symm]
    exact digit_not_space hdig

theorem encodeField_eq_cons (f : String × JVal) :
    encodeField f = '\"' :: (f.1.data ++ '\"' :: ':' :: ' ' :: encodeJVal f.2) := by
  simp [encodeField, encodeJStr]

theorem encodeFieldsSep_cons_eq (f : String × JVal) (fs : List (String × JVal)) :
    ∃ cs, encodeFieldsSep (f :: fs) = '\"' :: cs := by
  cases fs with
  | nil => exact ⟨_, encodeField_eq_cons f⟩
  | cons g gs =>
    refine ⟨f.1.data ++ '\"' :: ':' :: ' ' :: encodeJVal f.2 ++
      ',' :: ' ' :: encodeFieldsSep (g :: gs), ?_⟩
    rw [encodeFieldsSep, encodeField_eq_cons f]
    simp

theorem skipSpaces_encodeFieldsSep (f : String × JVal) (fs : List (String × JVal))
    (rest : List Char) :
    skipSpaces (' ' :: (encodeFieldsSep (f :: fs) ++ rest)) =
      encodeFieldsSep (f :: fs) ++ rest := by
  have hstep : skipSpaces (' ' :: (encodeFieldsSep (f :: fs) ++ rest)) =
      skipSpaces (encodeFieldsSep (f :: fs) ++ rest) := rfl
  rw [hstep]
  apply dropWhile_eq_self_of_head
  intro c hc
  obtain ⟨cs, hcs⟩ := encodeFieldsSep_cons_eq f fs
  rw [hcs, List.cons_append, List.head?_cons] at hc
  rw [show c = '\"' from (Option.some.inj hc).symm]
  decide

theorem parseFieldsAux_encode (fields : List (String × JVal)) :
    ∀ (fuel : Nat) (r : List Char),
      fields ≠ [] → (∀ f ∈ fields, validField f = true) → fields.length ≤ fuel →
      parseFieldsAux fuel (encodeFieldsSep fields ++ '\x7d' :: r) = some (fields, r) := by
  induction fields with
  | nil =>
    intro fuel r hne
    exact absurd rfl hne
  | cons f fs ih =>
    intro fuel r _ hval hfuel
    obtain ⟨fuel, rfl⟩ : ∃ fuel2, fuel = fuel2 + 1 :=
      ⟨fuel - 1, by simp at hfuel; omega⟩
    have hvf : validField f = true := hval f (List.mem_cons_self f fs)
    rw [validField, Bool.and_eq_true] at hvf
    have hkey : validStr f.1 = true := hvf.1
    have hvv : validJVal f.2 = true := hvf.2
    cases fs with
    | nil =>
      have hsplit : encodeFieldsSep [f] ++ '\x7d' :: r =
          encodeJStr f.1 ++ (':' :: ' ' :: (encodeJVal f.2 ++ '\x7d' :: r)) := by
        simp [encodeFieldsSep, encodeField]
      have h1 := parseJStr_encode (s := f.1)
        (':' :: ' ' :: (encodeJVal f.2 ++ '\x7d' :: r)) hkey
      have h2 := skipSpaces_encodeJVal f.2 ('\x7d' :: r)
      have h3 : parseJVal (encodeJVal f.2 ++ '\x7d' :: r) = some (f.2, '\x7d' :: r) := by
        apply parseJVal_encode f.2 _ hvv
        intro c hc
        rw [List.head?_cons] at hc
        rw [show c = '\x7d' from (Option.some.inj hc).symm]
        refine ⟨by decide, by decide, by decide⟩
      rw [hsplit, parseFieldsAux]
      simp only [h1, Option.bind, expectColon, h2, h3, afterValue]
    | cons g gs =>
      have hsplit : encodeFieldsSep (f :: g :: gs) ++ '\x7d' :: r =
          encodeJStr f.1 ++ (':' :: ' ' ::
            (encodeJVal f.2 ++ ',' :: ' ' ::
              (encodeFieldsSep (g :: gs) ++ '\x7d' :: r))) := by
        simp [encodeFieldsSep, encodeField]
      have h1 := parseJStr_encode (s := f.1)
        (':' :: ' ' :: (encodeJVal f.2 ++ ',' :: ' ' ::
          (encodeFieldsSep (g :: gs) ++ '\x7d' :: r))) hkey
      have h2 := skipSpaces_encodeJVal f.2
        (',' :: ' ' :: (encodeFieldsSep (g :: gs) ++ '\x7d' :: r))
      have h3 : parseJVal (encodeJVal f.2 ++ ',' :: ' ' ::
          (encodeFieldsSep (g :: gs) ++ '\x7d' :: r)) =
          some (f.2, ',' :: ' ' :: (encodeFieldsSep (g :: gs) ++ '\x7d' :: r)) := by
        apply parseJVal_encode f.2 _ hvv
        intro c hc
        rw [List.head?_cons] at hc
        rw [show c = ',' from (Option.some.inj hc).symm]
        refine ⟨by decide, by decide, by decide⟩
      have h4 := skipSpaces_encodeFieldsSep g gs ('\x7d' :: r)
      have h5 := ih fuel r (by simp) (fun x hx => hval x (List.mem_cons_of_mem f hx))
        (by simp at hfuel ⊢; omega)
      rw [hsplit, parseFieldsAux]
      simp only [h1, Option.bind, expectColon, h2, h3, afterValue, h4, h5]
      rfl

theorem encodeFieldsSep_length (fields : List (String × JVal)) :
    fields.length ≤ (encodeFieldsSep fields).length := by
  induction fields with
  | nil => simp [encodeFieldsSep]
  | cons f fs ih =>
    cases fs with
    | nil => simp [encodeFieldsSep, encodeField_eq_cons]
    | cons g gs =>
      rw [encodeFieldsSep]
      simp only [List.length_append, List.length_cons]
      simp only [List.length_cons] at ih ⊢
      have : 1 ≤ (encodeField f).length := by
        rw [encodeField_eq_cons]; simp
      omega

theorem parseObj_encode (fields : List (String × JVal)) (r : List Char)
    (hne : fields ≠ []) (hval : ∀ f ∈ fields, validField f = true) :
    parseObj (encodeObj fields ++ r) = some (fields, r) := by
  have hsplit : encodeObj fields ++ r =
      '\x7b' :: (encodeFieldsSep fields ++ '\x7d' :: r) := by
    simp [encodeObj]
  rw [hsplit, parseObj]
  apply parseFieldsAux_encode fields _ r hne hval
  have h1 := encodeFieldsSep_length fields
  simp only [List.length_append, List.length_cons]
  omega

theorem entryFromFields_fieldsOf (e : Entry) :
    entryFromFields (tagOf e) (fieldsOf e) = some e := by
  cases e
  case SyncRequest direction _ _ _ _ _ _ _ => cases direction <;> rfl
  all_goals rfl

theorem fieldsOf_ne_nil (e : Entry) : fieldsOf e ≠ [] := by
  cases e <;> simp [fieldsOf]

theorem validField_mk_num (k : String) (hk : validStr k = true) (t : Timestamp) :
    validField (k, .num t) = true := by
  simp [validField, validJVal, hk]

theorem validField_mk_str (k : String) (hk : validStr k = true) {s : String}
    (hs : validStr s = true) : validField (k, .str s) = true := by
  simp [validField, validJVal, hk, hs]

theorem validStr_directionStr (d : TransferDirection) : validStr (directionStr d) = true := by
  cases d <;> decide

theorem fieldsOf_valid : ∀ e : Entry, validEntry e = true →
    ∀ f ∈ fieldsOf e, validField f = true := by
  intro e h f hf
  cases e with
  | File name size =>
    rw [validEntry] at h
    simp only [fieldsOf, List.mem_cons, List.not_mem_nil, or_false] at hf
    rcases hf with rfl | rfl
    · exact validField_mk_str _ (by decide) h
    · exact validField_mk_num _ (by decide) _
  | Metadata name size digest =>
    rw [validEntry, Bool.and_eq_true] at h
    simp only [fieldsOf, List.mem_cons, List.not_mem_nil, or_false] at hf
    rcases hf with rfl | rfl | rfl
    · exact validField_mk_str _ (by decide) h.1
    · exact validField_mk_num _ (by decide) _
    · exact validField_mk_str _ (by decide) h.2
  | TransferRequest name size =>
    rw [validEntry] at h
    simp only [fieldsOf, List.mem_cons, List.not_mem_nil, or_false] at hf
    rcases hf with rfl | rfl
    · exact validField_mk_str _ (by decide) h
    · exact validField_mk_num _ (by decide) _
  | VerifyRequest name size =>
    rw [validEntry] at h
    simp only [fieldsOf, List.mem_cons, List.not_mem_nil, or_false] at hf
    rcases hf with rfl | rfl
    · exact validField_mk_str _ (by decide) h
    · exact validField_mk_num _ (by decide) _
  | TransferComplete name size digest timestamp =>
    rw [validEntry, Bool.and_eq_true] at h
    simp only [fieldsOf, List.mem_cons, List.not_mem_nil, or_false] at hf
    rcases hf with rfl | rfl | rfl | rfl
    · exact validField_mk_str _ (by decide) h.1
    · exact validField_mk_num _ (by decide) _
    · exact validField_mk_str _ (by decide) h.2
    · exact validField_mk_num _ (by decide) _
  | SyncRequest direction timestamp bytes_to_verify files_to_verify rp bytes_to_transfer
      files_to_transfer files_at_source =>
    rw [validEntry] at h
    simp only [fieldsOf, List.mem_cons, List.not_mem_nil, or_false] at hf
    rcases hf with rfl | rfl | rfl | rfl | rfl | rfl | rfl | rfl
    · exact validField_mk_str _ (by decide) (validStr_directionStr direction)
    · exact validField_mk_num _ (by decide) _
    · exact validField_mk_num _ (by decide) _
    · exact validField_mk_num _ (by decide) _
    · exact validField_mk_str _ (by decide) h
    · exact validField_mk_num _ (by decide) _
    · exact validField_mk_num _ (by decide) _
    · exact validField_mk_num _ (by decide) _
  | SyncDone timestamp =>
    simp only [fieldsOf, List.mem_cons, List.not_mem_nil, or_false] at hf
    rcases hf with rfl
    exact validField_mk_num _ (by decide) _

theorem tag_no_space (e : Entry) : ∀ c ∈ (tagOf e).data, (c != ' ') = true := by
  cases e <;> simp only [tagOf, variantName] <;> decide

theorem parseEntryLine_encode (e : Entry) (h : validEntry e = true) :
    parseEntryLine (encodeLine e) = some e := by
  obtain ⟨htake, hdrop⟩ := takeWhile_append_of (l := (tagOf e).data)
    (r := ' ' :: encodeObj (fieldsOf e)) (tag_no_space e)
    (by
      intro c hc
      rw [List.head?_cons] at hc
      rw [show c = ' ' from (Option.some.inj hc).symm]
      decide)
  have hobj : parseObj (encodeObj (fieldsOf e)) = some (fieldsOf e, []) := by
    have hp := parseObj_encode (fieldsOf e) [] (fieldsOf_ne_nil e) (fieldsOf_valid e h)
    rwa [List.append_nil] at hp
  unfold parseEntryLine encodeLine
  rw [hdrop]
  simp only [hobj, htake]
  exact entryFromFields_fieldsOf e

theorem trimChars_eq_self {cs : List Char}
    (h1 : ∀ c, cs.head? = some c → c.isWhitespace = false)
    (h2 : ∀ c, cs.getLast? = some c → c.isWhitespace = false) :
    trimChars cs = cs := by
  unfold trimChars
  rw [dropWhile_eq_self_of_head h1]
  rw [dropWhile_eq_self_of_head (fun c hc => h2 c (by rwa [List.head?_reverse] at hc))]
  exact List.reverse_reverse cs

theorem encodeLine_head (e : Entry) :
    ∃ c cs, encodeLine e = c :: cs ∧ c.isWhitespace = false ∧ c ≠ '#' := by
  cases e <;> exact ⟨_, _, rfl, by decide, by decide⟩

theorem encodeLine_getLast (e : Entry) : (encodeLine e).getLast? = some '\x7d' := by
  have h1 : encodeLine e =
      ((tagOf e).data ++ ' ' :: '\x7b' :: encodeFieldsSep (fieldsOf e)) ++ ['\x7d'] := by
    simp [encodeLine, encodeObj]
  rw [h1, List.getLast?_concat]

theorem decodeLine_encode (e : Entry) (h : validEntry e = true) :
    decodeLine (encodeLine e) = .ok (some e) := by
  obtain ⟨c, cs, hc, hws, hnh⟩ := encodeLine_head e
  have htrim : trimChars (encodeLine e) = encodeLine e := by
    apply trimChars_eq_self
    · intro c2 hc2
      rw [hc, List.head?_cons] at hc2
      rw [show c2 = c from (Option.some.inj hc2).symm]
      exact hws
    · intro c2 hc2
      rw [encodeLine_getLast e] at hc2
      rw [show c2 = '\x7d' from (Option.some.inj hc2).symm]
      decide
  have hne : ¬(encodeLine e = []) := by rw [hc]; simp
  have hhash : ¬((encodeLine e).head? = some '#') := by
    rw [hc, List.head?_cons]
    intro hq
    exact hnh (Option.some.inj hq)
  simp only [decodeLine, htrim, if_neg hne, if_neg hhash, parseEntryLine_encode e h]

theorem ne_nl_of_digit {c : Char} (h : c.isDigit = true) : c ≠ '\n' := by
  intro hc
  rw [hc] at h
  exact absurd h (by decide)

theorem no_nl_encodeTimestamp (t : Timestamp) : ∀ c ∈ encodeTimestamp t, c ≠ '\n' := by
  intro c hc
  rw [encodeTimestamp] at hc
  rcases List.mem_append.mp hc with h | h
  · exact ne_nl_of_digit (isDigit_mem_natChars t.whole c h)
  · cases hf : t.frac with
    | nil => rw [hf] at h; simp at h
    | cons d ds =>
      rw [hf] at h
      rcases List.mem_cons.mp h with rfl | h2
      · decide
      · obtain ⟨d2, _, rfl⟩ := List.mem_map.mp h2
        exact ne_nl_of_digit (isDigit_digitChar d2.isLt)

theorem no_nl_encodeJStr {s : String} (hs : validStr s = true) :
    ∀ c ∈ encodeJStr s, c ≠ '\n' := by
  intro c hc
  rw [encodeJStr] at hc
  rcases List.mem_cons.mp hc with rfl | h2
  · decide
  · rcases List.mem_append.mp h2 with h3 | h3
    · exact (validStr_spec hs c h3).2.2.1
    · rcases List.mem_singleton.mp h3 with rfl
      decide

theorem no_nl_encodeJVal {v : JVal} (hv : validJVal v = true) :
    ∀ c ∈ encodeJVal v, c ≠ '\n' := by
  intro c hc
  cases v with
  | str s => exact no_nl_encodeJStr hv c hc
  | num t => exact no_nl_encodeTimestamp t c hc

theorem no_nl_encodeField {f : String × JVal} (hf : validField f = true) :
    ∀ c ∈ encodeField f, c ≠ '\n' := by
  intro c hc
  rw [validField, Bool.and_eq_true] at hf
  rw [encodeField] at hc
  rcases List.mem_append.mp hc with h | h
  · exact no_nl_encodeJStr hf.1 c h
  · rcases List.mem_cons.mp h with rfl | h2
    · decide
    · rcases List.mem_cons.mp h2 with rfl | h3
      · decide
      · exact no_nl_encodeJVal hf.2 c h3

theorem no_nl_encodeFieldsSep {fields : List (String × JVal)}
    (hval : ∀ f ∈ fields, validField f = true) :
    ∀ c ∈ encodeFieldsSep fields, c ≠ '\n' := by
  induction fields with
  | nil => intro c hc; simp [encodeFieldsSep] at hc
  | cons f fs ih =>
    intro c hc
    have hf : validField f = true := hval f (List.mem_cons_self f fs)
    cases fs with
    | nil => exact no_nl_encodeField hf c hc
    | cons g gs =>
      rw [encodeFieldsSep] at hc
      rcases List.mem_append.mp hc with h | h
      · exact no_nl_encodeField hf c h
      · rcases List.mem_cons.mp h with rfl | h2
        · decide
        · rcases List.mem_cons.mp h2 with rfl | h3
          · decide
          · exact ih (fun x hx => hval x (List.mem_cons_of_mem f hx)) c h3

theorem no_nl_encodeLine {e : Entry} (h : validEntry e = true) :
    ∀ c ∈ encodeLine e, c ≠ '\n' := by
  intro c hc
  rw [encodeLine] at hc
  rcases List.mem_append.mp hc with h1 | h1
  · have htag : ∀ c2 ∈ (tagOf e).data, c2 ≠ '\n' := by
      cases e <;> simp only [tagOf, variantName] <;> decide
    exact htag c h1
  · rcases List.mem_cons.mp h1 with rfl | h2
    · decide
    · rw [encodeObj] at h2
      rcases List.mem_cons.mp h2 with rfl | h3
      · decide
      · rcases List.mem_append.mp h3 with h4 | h4
        · exact no_nl_encodeFieldsSep (fieldsOf_valid e h) c h4
        · rcases List.mem_singleton.mp h4 with rfl
          decide

theorem splitNl_append (l r : List Char) (hl : ∀ c ∈ l, c ≠ '\n') :
    splitNl (l ++ '\n' :: r) = l :: splitNl r := by
  induction l with
  | nil =>
    rw [List.nil_append, splitNl, if_pos rfl]
  | cons c cs ih =>
    have hc : c ≠ '\n' := hl c (List.mem_cons_self c cs)
    have ih2 := ih (fun x hx => hl x (List.mem_cons_of_mem c hx))
    rw [List.cons_append, splitNl, if_neg hc, ih2]

theorem splitNl_writeEntries (es : List Entry) (h : ∀ e ∈ es, validEntry e = true) :
    splitNl (writeEntries es) = es.map encodeLine ++ [[]] := by
  induction es with
  | nil => rfl
  | cons e es ih =>
    have he : validEntry e = true := h e (List.mem_cons_self e es)
    have hsplit : writeEntries (e :: es) = encodeLine e ++ '\n' :: writeEntries es := by
      simp [writeEntries, write_entry_to]
    rw [hsplit, splitNl_append _ _ (no_nl_encodeLine he),
      ih (fun x hx => h x (List.mem_cons_of_mem e hx))]
    rfl

theorem readLines_encode (es : List Entry) (h : ∀ e ∈ es, validEntry e = true) :
    readLines (es.map encodeLine ++ [[]]) = .ok es := by
  induction es with
  | nil => rfl
  | cons e es ih =>
    have h1 := decodeLine_encode e (h e (List.mem_cons_self e es))
    have h2 := ih (fun x hx => h x (List.mem_cons_of_mem e hx))
    simp only [List.map_cons, List.cons_append, readLines, h1, List.append_eq, h2]

/-- C2: round-trip of the manifest entry serialization — decoding the line
produced by encoding any valid entry yields a structurally equal entry, and
writing a sequence of valid entries to a log and reading it back yields the
same sequence in the same order. -/
theorem manifest_round_trip (es : List Entry) (e : Entry)
    (hes : ∀ x ∈ es, validEntry x = true) (he : validEntry e = true) :
    decodeLine (encodeLine e) = .ok (some e) ∧
      read_manifest (String.mk (writeEntries es)) = .ok es := by
  refine ⟨decodeLine_encode e he, ?_⟩
  show readLines (splitNl (writeEntries es)) = .ok es
  rw [splitNl_writeEntries es hes, readLines_encode es hes]

/-- The entry list of `test_round_trip_manifest_entries`. -/
def testEntries : List Entry :=
  [.TransferRequest "foobar" 123,
   .VerifyRequest "foobar" 123,
   .TransferComplete "foobar" 123 "abcd" ⟨1234, [5, 6, 7, 8]⟩,
   .SyncRequest .PULL ⟨1234, []⟩ 10 10 "/a/path" 10 10 10,
   .SyncDone ⟨1234, [5, 6, 7, 8]⟩,
   .File "i have spaces" 123,
   .Metadata "i have spaces" 123 "abcd"]

theorem manifest_round_trip_witness :
    (∀ x ∈ testEntries, validEntry x = true) ∧
      (decodeLine (encodeLine (.File "i have spaces" 123)) =
          .ok (some (.File "i have spaces" 123)) ∧
        read_manifest (String.mk (writeEntries testEntries)) = .ok testEntries) :=
  ⟨by decide,
    manifest_round_trip testEntries (.File "i have spaces" 123) (by decide) (by decide)⟩

/-- A line the reader skips: blank after stripping, or first non-whitespace
character `#`. -/
def skipsLine (cs : List Char) : Bool :=
  decide (trimChars cs = []) || decide ((trimChars cs).head? = some '#')

/-- The entry contributed by one line: none for skipped lines. -/
def lineEntry (cs : List Char) : Option Entry :=
  if skipsLine cs then none else parseEntryLine (trimChars cs)

/-- The log text of `test_manifest_comments_and_blank_lines_are_ignored`:
two `FILE` lines interleaved with a comment line and blank lines (each line
indented, as in the test's triple-quoted string). -/
def testLogText : String :=
  "    FILE \x7b\"name\": \"foobar\", \"size\": 123\x7d\n    # I am a comment\n\n    FILE \x7b\"name\": \"foobar\", \"size\": 123\x7d\n\n    "

theorem decodeLine_skip {l : List Char} (h : skipsLine l = true) :
    decodeLine l = .ok none := by
  rw [skipsLine, Bool.or_eq_true, decide_eq_true_eq, decide_eq_true_eq] at h
  by_cases h0 : trimChars l = []
  · simp only [decodeLine, if_pos h0]
  · have hh : (trimChars l).head? = some '#' := by tauto
    simp only [decodeLine, if_neg h0, if_pos hh]

theorem skipsLine_false_spec {l : List Char} (hs : skipsLine l = false) :
    ¬(trimChars l = []) ∧ ¬((trimChars l).head? = some '#') := by
  rw [skipsLine, Bool.or_eq_false_iff, decide_eq_false_iff_not,
    decide_eq_false_iff_not] at hs
  exact hs

theorem decodeLine_entry {l : List Char} {e : Entry} (hs : skipsLine l = false)
    (hp : parseEntryLine (trimChars l) = some e) : decodeLine l = .ok (some e) := by
  obtain ⟨h0, hh⟩ := skipsLine_false_spec hs
  simp only [decodeLine, if_neg h0, if_neg hh, hp]

theorem decodeLine_malformed {l : List Char} (hs : skipsLine l = false)
    (hp : parseEntryLine (trimChars l) = none) :
    decodeLine l = .error (.MalformedEntry (String.mk l)) := by
  obtain ⟨h0, hh⟩ := skipsLine_false_spec hs
  simp only [decodeLine, if_neg h0, if_neg hh, hp]

set_option maxRecDepth 10000 in
/-- C7: reading a log whose lines are entry lines interleaved with comment and
blank lines yields exactly the decoded entry lines, in order, with nothing for
the comment and blank lines; the concrete test log with two `FILE` lines, a
comment line and blank lines yields exactly the two `FILE` entries; and a log
containing a line that is neither skippable nor `TAG<space><payload>` fails
with `MalformedEntry`. -/
theorem read_manifest_skips (lines lines2 : List (List Char)) (bad : List Char)
    (hok : ∀ l ∈ lines, skipsLine l = true ∨ ∃ e, parseEntryLine (trimChars l) = some e)
    (hbad : bad ∈ lines2) (hbs : skipsLine bad = false)
    (hbp : parseEntryLine (trimChars bad) = none) :
    readLines lines = .ok (lines.filterMap lineEntry) ∧
      read_manifest testLogText = .ok [.File "foobar" 123, .File "foobar" 123] ∧
      ∃ msg, readLines lines2 = .error (.MalformedEntry msg) := by
  refine ⟨?_, by rfl, ?_⟩
  · clear hbad hbs hbp
    induction lines with
    | nil => rfl
    | cons l ls ih =>
      have hl := hok l (List.mem_cons_self l ls)
      have ih2 := ih (fun x hx => hok x (List.mem_cons_of_mem l hx))
      cases hsl : skipsLine l with
      | true =>
        have hd := decodeLine_skip hsl
        have hfm : lineEntry l = none := by rw [lineEntry, if_pos hsl]
        simp only [readLines, hd, List.filterMap_cons, hfm, ih2]
      | false =>
        rcases hl with hl | ⟨e, he⟩
        · rw [hsl] at hl
          exact absurd hl (by decide)
        · have hd := decodeLine_entry hsl he
          have hfm : lineEntry l = some e := by
            rw [lineEntry, if_neg (by simp [hsl]), he]
          simp only [readLines, hd, List.filterMap_cons, hfm, ih2]
  · clear hok
    induction lines2 with
    | nil => simp at hbad
    | cons l ls ih =>
      rcases List.mem_cons.mp hbad with rfl | hmem
      · exact ⟨String.mk bad, by simp only [readLines, decodeLine_malformed hbs hbp]⟩
      · obtain ⟨msg, hmsg⟩ := ih hmem
        cases hd : decodeLine l with
        | error er =>
          obtain ⟨s⟩ := er
          exact ⟨s, by simp only [readLines, hd]⟩
        | ok oe =>
          cases oe with
          | none => exact ⟨msg, by simp only [readLines, hd, hmsg]⟩
          | some e => exact ⟨msg, by simp only [readLines, hd, hmsg]⟩

def commentLineEx : List Char := ['#', ' ', 'c']

def entryLineEx : List Char :=
  'F' :: 'I' :: 'L' :: 'E' :: ' ' :: '\x7b' :: '\"' :: 'n' :: 'a' :: 'm' :: 'e' ::
    '\"' :: ':' :: ' ' :: '\"' :: 'a' :: '\"' :: ',' :: ' ' :: '\"' :: 's' :: 'i' ::
    'z' :: 'e' :: '\"' :: ':' :: ' ' :: '1' :: '\x7d' :: []

theorem read_manifest_skips_witness :
    (['x'] ∈ [['x']] ∧ skipsLine ['x'] = false ∧
        parseEntryLine (trimChars ['x']) = none) ∧
      (readLines [commentLineEx, [], entryLineEx] =
          .ok ([commentLineEx, [], entryLineEx].filterMap lineEntry) ∧
        read_manifest testLogText = .ok [.File "foobar" 123, .File "foobar" 123] ∧
        ∃ msg, readLines [['x']] = .error (.MalformedEntry msg)) :=
  ⟨⟨by decide, by decide, by decide⟩,
    read_manifest_skips [commentLineEx, [], entryLineEx] [['x']] ['x']
      (by
        intro l hl
        rcases List.mem_cons.mp hl with rfl | hl2
        · exact Or.inl (by decide)
        rcases List.mem_cons.mp hl2 with rfl | hl3
        · exact Or.inl (by decide)
        rcases List.mem_singleton.mp hl3 with rfl
        exact Or.inr ⟨.File "a" 1, by rfl⟩)
      (by decide) (by decide) (by decide)⟩

/-! ## The Atomic Copier

Modelled from the spec (absent `xfer.py`): the filesystem visible to the
copier is a mapping from paths to regular-file contents. -/

structure XferFS where
  files : List (String × List Byte)

def fsRead (fs : XferFS) (path : String) : Option (List Byte) := fs.files.lookup path

def fsExists (fs : XferFS) (path : String) : Bool := (fsRead fs path).isSome

def fsRemove (fs : XferFS) (path : String) : XferFS :=
  ⟨fs.files.filter (fun kv => kv.1 != path)⟩

def fsWrite (fs : XferFS) (path : String) (content : List Byte) : XferFS :=
  ⟨(path, content) :: (fsRemove fs path).files⟩

/-- An atomic rename: the temporary file replaces the destination. -/
def fsRename (fs : XferFS) (src dest : String) : XferFS :=
  match fsRead fs src with
  | some c => fsWrite (fsRemove fs src) dest c
  | none => fs

/-- The temporary file written alongside the destination. -/
def tmpName (dest : String) : String := dest ++ ".tmp"

inductive CopyError
  | SourceUnavailable (path : String)
  | WriteFailed (path : String)
deriving DecidableEq

/-- Modelled from the spec: `hash_file` (absent `xfer.py`) reads the file in
fixed-size chunks, folding each chunk into the hasher while counting bytes;
returns the hasher and the byte count. -/
def hash_file (fs : XferFS) (path : String) : Except CopyError (HashState × Nat) :=
  match fsRead fs path with
  | none => .error (.SourceUnavailable path)
  | some content =>
    .ok ((readChunks content).foldl
      (fun acc ch => (hashUpdate acc.1 ch, acc.2 + ch.length)) (hashInit, 0))

/-- Modelled from the spec: `copy_with_hash` (absent `xfer.py`) reads the
source in fixed-size chunks, writing each chunk to a temporary file alongside
the destination and folding it into the hasher in the same pass; on success
the temporary file is renamed onto the destination; on failure (here: source
unavailable) the temporary file is removed and the destination path is left
exactly as it was before the call. -/
def copy_with_hash (fs : XferFS) (src dest : String) :
    XferFS × Except CopyError (HashState × Nat) :=
  match fsRead fs src with
  | none => (fsRemove fs (tmpName dest), .error (.SourceUnavailable src))
  | some content =>
    let step := (readChunks content).foldl
      (fun acc ch => (hashUpdate acc.1 ch, acc.2.1 + ch.length, acc.2.2 ++ ch))
      (hashInit, 0, [])
    (fsRename (fsWrite fs (tmpName dest) step.2.2) (tmpName dest) dest,
      .ok (step.1, step.2.1))

theorem lookup_filter_ne (l : List (String × List Byte)) (p q : String) (h : q ≠ p) :
    (l.filter (fun kv => kv.1 != p)).lookup q = l.lookup q := by
  induction l with
  | nil => rfl
  | cons kv l ih =>
    obtain ⟨k, v⟩ := kv
    by_cases hk : k = p
    · subst hk
      rw [List.filter_cons, if_neg (by simp)]
      rw [ih, List.lookup]
      have : (q == k) = false := beq_false_of_ne h
      rw [this]
    · rw [List.filter_cons, if_pos (by simpa using hk)]
      by_cases hq : q = k
      · subst hq
        simp [List.lookup]
      · have hqf : (q == k) = false := beq_false_of_ne hq
        rw [List.lookup, hqf, List.lookup, hqf, ih]

theorem fsRead_fsRemove_ne (fs : XferFS) (p q : String) (h : q ≠ p) :
    fsRead (fsRemove fs p) q = fsRead fs q :=
  lookup_filter_ne fs.files p q h

theorem dest_ne_tmpName (dest : String) : dest ≠ tmpName dest := by
  intro h
  have hl := congrArg String.length h
  rw [tmpName, String.length_append] at hl
  simp at hl
  exact absurd hl (by decide)

/-- C1: whenever `copy_with_hash` fails (in this model: the source path does
not exist), the destination path is left exactly as it was before the call —
in particular it does not exist afterwards if it did not exist before. -/
theorem copy_with_hash_failure (fs : XferFS) (src dest : String) (err : CopyError)
    (hfail : (copy_with_hash fs src dest).2 = .error err) :
    fsRead (copy_with_hash fs src dest).1 dest = fsRead fs dest ∧
      (fsExists fs dest = false → fsExists (copy_with_hash fs src dest).1 dest = false) := by
  cases hsrc : fsRead fs src with
  | some c =>
    rw [copy_with_hash, hsrc] at hfail
    exact absurd hfail (by simp)
  | none =>
    have hres : (copy_with_hash fs src dest).1 = fsRemove fs (tmpName dest) := by
      rw [copy_with_hash, hsrc]
    have hpres : fsRead (copy_with_hash fs src dest).1 dest = fsRead fs dest := by
      rw [hres]
      exact fsRead_fsRemove_ne fs (tmpName dest) dest (dest_ne_tmpName dest)
    refine ⟨hpres, fun hd => ?_⟩
    rw [fsExists, hpres]
    exact hd

def fsNoSrcEx : XferFS := ⟨[("other", [1, 2, 3])]⟩

theorem copy_with_hash_failure_witness :
    (copy_with_hash fsNoSrcEx "src" "dest").2 = .error (.SourceUnavailable "src") ∧
      fsExists fsNoSrcEx "dest" = false ∧
      fsExists (copy_with_hash fsNoSrcEx "src" "dest").1 "dest" = false :=
  ⟨by rfl, by decide,
    (copy_with_hash_failure fsNoSrcEx "src" "dest" (.SourceUnavailable "src")
      (by rfl)).2 (by decide)⟩

theorem foldl_hash_count (chs : List (List Byte)) :
    ∀ (st : HashState) (n : Nat),
      (chs.foldl (fun a ch => (hashUpdate a.1 ch, a.2 + ch.length)) (st, n)).2 =
        n + (chs.map List.length).sum := by
  induction chs with
  | nil => intro st n; simp
  | cons ch chs ih =>
    intro st n
    rw [List.foldl_cons, ih, List.map_cons, List.sum_cons]
    omega

theorem foldl_hash_proj (chs : List (List Byte)) :
    ∀ (st : HashState) (n : Nat) (acc : List Byte),
      ((chs.foldl (fun a ch => (hashUpdate a.1 ch, a.2.1 + ch.length, a.2.2 ++ ch))
          (st, n, acc)).1 =
        (chs.foldl (fun a ch => (hashUpdate a.1 ch, a.2 + ch.length)) (st, n)).1) ∧
      ((chs.foldl (fun a ch => (hashUpdate a.1 ch, a.2.1 + ch.length, a.2.2 ++ ch))
          (st, n, acc)).2.1 =
        (chs.foldl (fun a ch => (hashUpdate a.1 ch, a.2 + ch.length)) (st, n)).2) := by
  induction chs with
  | nil => intro st n acc; exact ⟨rfl, rfl⟩
  | cons ch chs ih =>
    intro st n acc
    rw [List.foldl_cons, List.foldl_cons]
    exact ih (hashUpdate st ch) (n + ch.length) (acc ++ ch)

theorem readChunks_length_sum (content : List Byte) :
    ((readChunks content).map List.length).sum = content.length := by
  rw [← List.length_flatten, readChunks_flatten]

/-- C3: for a readable source, `copy_with_hash` returns a hasher and byte
count equal to those obtained by `hash_file` on the source, and the hasher is
a deterministic function of the content alone: any file with the same content
hashes to the same result. -/
theorem copy_with_hash_agrees (fs : XferFS) (src dest : String) (content : List Byte)
    (h : fsRead fs src = some content) :
    ∃ st : HashState,
      hash_file fs src = .ok (st, content.length) ∧
      (copy_with_hash fs src dest).2 = .ok (st, content.length) ∧
      ∀ (fs2 : XferFS) (p : String), fsRead fs2 p = some content →
        hash_file fs2 p = .ok (st, content.length) := by
  refine ⟨((readChunks content).foldl
    (fun acc ch => (hashUpdate acc.1 ch, acc.2 + ch.length)) (hashInit, 0)).1, ?_, ?_, ?_⟩
  · rw [hash_file, h]
    have hc := foldl_hash_count (readChunks content) hashInit 0
    rw [readChunks_length_sum, Nat.zero_add] at hc
    rw [← hc]
  · rw [copy_with_hash, h]
    obtain ⟨h1, h2⟩ := foldl_hash_proj (readChunks content) hashInit 0 []
    have hc := foldl_hash_count (readChunks content) hashInit 0
    rw [readChunks_length_sum, Nat.zero_add] at hc
    simp only [h1, h2, hc]
  · intro fs2 p h2
    rw [hash_file, h2]
    have hc := foldl_hash_count (readChunks content) hashInit 0
    rw [readChunks_length_sum, Nat.zero_add] at hc
    rw [← hc]

def fsSrcEx : XferFS := ⟨[("src", [10, 20, 30])]⟩

theorem copy_with_hash_agrees_witness :
    fsRead fsSrcEx "src" = some [10, 20, 30] ∧
      ∃ st : HashState,
        hash_file fsSrcEx "src" = .ok (st, 3) ∧
        (copy_with_hash fsSrcEx "src" "dest").2 = .ok (st, 3) ∧
        ∀ (fs2 : XferFS) (p : String), fsRead fs2 p = some [10, 20, 30] →
          hash_file fs2 p = .ok (st, 3) :=
  ⟨by decide, copy_with_hash_agrees fsSrcEx "src" "dest" [10, 20, 30] (by decide)⟩

end FileXfer.Xfer
